import Mathlib

/-
Verification development for the Brain repository (Rust sources:
src/chat.rs, src/client.rs, src/main.rs, src/mcp.rs).

The development shallowly embeds the streaming chat-response engine:
  * chat.rs   : the thinking-tag regex, get_thinking, generate_response,
                and the history-owning Chat session;
  * client.rs : the NDJSON frame decoder (serde_json::from_str::<ChatResponse>),
                the chunk/line streaming loop of chat_stream_with_tools_impl,
                execute_tool, and handle_tool_results_impl.

Rust strings are modelled as lists of characters; byte streams are lists of
chunks, each chunk a list of characters (String::from_utf8_lossy is identity
on the valid UTF-8 inputs considered).  All definitions are executable and
structurally (or fuel-) recursive so that concrete runs reduce in the kernel.
-/

set_option maxRecDepth 100000

namespace Brain

/-- Characters of a Rust str value, modelled as a list of characters. -/
abbrev Str := List Char

/-- Convert a Lean string literal to the character-list representation. -/
def str (s : String) : Str := s.data

/-- Unicode White_Space test.  This is both Rust's char::is_whitespace (used
by str::trim) and the regex crate's \s class (Unicode mode, the default):
both are defined by the Unicode White_Space property, so one predicate
serves for both. -/
def isWs (c : Char) : Bool :=
  c = ' ' || c = '\t' || c = '\n' || c = '\x0b' || c = '\x0c' || c = '\r' ||
  c = '\x85' || c = '\xa0' || c = ' ' || (' ' ≤ c && c ≤ ' ') ||
  c = ' ' || c = ' ' || c = ' ' || c = ' ' || c = '　'

/-- Drop trailing characters satisfying isWs (the right half of str::trim). -/
def dropTrailingWs : Str → Str
  | [] => []
  | c :: cs =>
    let t := dropTrailingWs cs
    if t.isEmpty && isWs c then [] else c :: t

/-- Rust str::trim: remove leading and trailing Unicode whitespace. -/
def trim (s : Str) : Str := dropTrailingWs (s.dropWhile isWs)

/-- Bool test whether the first list is a prefix of the second
(Rust str::starts_with on the character level). -/
def hasPrefix : Str → Str → Bool
  | [], _ => true
  | _ :: _, [] => false
  | p :: ps, c :: cs => if p = c then hasPrefix ps cs else false

/-- First occurrence of a (non-empty) pattern in a string: returns the text
before the occurrence and the text after it (Rust str::find followed by
slicing).  Returns none when the pattern does not occur. -/
def splitFirst (pat : Str) : Str → Option (Str × Str)
  | [] => none
  | c :: cs =>
    if hasPrefix pat (c :: cs) then some ([], List.drop pat.length (c :: cs))
    else (splitFirst pat cs).map (fun p => (c :: p.1, p.2))

/-- Substring test (Rust str::contains), for non-empty patterns. -/
def containsSub (pat s : Str) : Bool := (splitFirst pat s).isSome

/-- Fuel-driven worker for replaceAll.  A fuel of s.length + 1 is always
sufficient for a non-empty pattern, since every step consumes at least one
character of the subject. -/
def replaceAllGo (pat rep : Str) : Nat → Str → Str
  | 0, s => s
  | _ + 1, [] => []
  | fuel + 1, c :: cs =>
    if hasPrefix pat (c :: cs) then
      rep ++ replaceAllGo pat rep fuel (List.drop pat.length (c :: cs))
    else c :: replaceAllGo pat rep fuel cs

/-- Rust String::replace: replace every non-overlapping occurrence of pat,
scanning left to right.  The sources only ever call this with a non-empty
pattern (a match of the thinking regex, which starts with the literal
start marker); the empty-pattern case is given the identity behaviour. -/
def replaceAll (pat rep s : Str) : Str :=
  if pat.isEmpty then s else replaceAllGo pat rep (s.length + 1) s

/-- Split a string at every occurrence of a separator character
(Rust str::split with a char pattern): n separators yield n+1 pieces,
and the empty string yields one empty piece. -/
def splitOnC (sep : Char) : Str → List Str
  | [] => [[]]
  | c :: cs =>
    if c = sep then [] :: splitOnC sep cs
    else
      match splitOnC sep cs with
      | [] => [[c]]
      | p :: ps => (c :: p) :: ps

/-- Remove one trailing carriage return (the \r\n tolerance of str::lines). -/
def stripCr (l : Str) : Str := if l.getLast? = some '\r' then l.dropLast else l

/-- Rust str::lines: split on newline characters, do not report a final empty
segment produced by a trailing newline, and strip one trailing \r from every
newline-terminated line (a final unterminated fragment keeps its characters,
since only \r\n counts as a terminator).  Used by client.rs on each received
chunk separately. -/
def rustLines (s : Str) : List Str :=
  let parts := splitOnC '\n' s
  if parts.getLast? = some [] then (parts.dropLast).map stripCr
  else (parts.dropLast).map stripCr ++ [(parts.getLast?).getD []]

/-- The guard line.trim().is_empty() in chat_stream_with_tools_impl. -/
def isBlankLine (l : Str) : Bool := (trim l).isEmpty

/- ----------------------------------------------------------------------
chat.rs: the thinking regex and the Chat session
---------------------------------------------------------------------- -/

/-- The literal start marker of the thinking regex in chat.rs. -/
def thinkTag : Str := str "<think>"

/-- The literal end marker of the thinking regex in chat.rs. -/
def endTag : Str := str "</think>"

/-- Core of the regex (?s)<think>\s*(.*?)\s*(?:</think>|\z) after the start
marker and the greedy leading \s* have been consumed: split the remaining
text r into the capture of the lazy (.*?) and the rest.  Leftmost-first
(Perl-style) semantics, which the regex crate implements, make the lazy
group stop at the first position from which the trailing
\s*(?:</think>|\z) succeeds, i.e. the first position where, after skipping
the whitespace run, the text either starts with the end marker or has
ended (r is a suffix of the whole subject, so exhausting it is \z).
Returns (capture, rest-of-r). -/
def splitAtEnd : Str → Str × Str
  | [] => ([], [])
  | c :: cs =>
    let s := (c :: cs).dropWhile isWs
    if s.isEmpty || hasPrefix endTag s then ([], c :: cs)
    else
      let p := splitAtEnd cs
      (c :: p.1, p.2)

/-- The match of thinking_regex = (?s)<think>\s*(.*?)\s*(?:</think>|\z)
against a text, with leftmost-first semantics: the overall match starts at
the first occurrence of the start marker (from any such position the \z
alternative guarantees a match, so the leftmost viable start wins); the
first \s* is greedy, the capture (.*?) is lazy, the second \s* is greedy,
and the alternation prefers the end marker, reaching \z exactly when
everything after the capture is whitespace running to the end of the text.
Returns (whole match, capture group 1), i.e. captures.get(0) and
captures.get(1) of chat.rs; none when the start marker does not occur. -/
def thinkingCaptures (text : Str) : Option (Str × Str) :=
  match splitFirst thinkTag text with
  | none => none
  | some (_, b) =>
    if hasPrefix endTag (((splitAtEnd (b.dropWhile isWs)).2).dropWhile isWs) then
      some (thinkTag ++ b.takeWhile isWs ++ (splitAtEnd (b.dropWhile isWs)).1 ++
        ((splitAtEnd (b.dropWhile isWs)).2).takeWhile isWs ++ endTag,
        (splitAtEnd (b.dropWhile isWs)).1)
    else
      some (thinkTag ++ b.takeWhile isWs ++ (splitAtEnd (b.dropWhile isWs)).1 ++
        (splitAtEnd (b.dropWhile isWs)).2,
        (splitAtEnd (b.dropWhile isWs)).1)

/-- chat.rs Chat::get_thinking.  When the regex matches: in result mode
(is_result = true) remove every occurrence of the matched substring from
the text and trim the remainder; otherwise return capture group 1.  When
the regex does not match: result mode returns the text unchanged, extract
mode returns none.  (Group 0 and group 1 always exist on a match, so the
inner if-let branches of the source always take their Some arm.) -/
def get_thinking (text : Str) (is_result : Bool) : Option Str :=
  match thinkingCaptures text with
  | some (matched, inner) =>
    if is_result then some (trim (replaceAll matched [] text))
    else some inner
  | none =>
    if is_result then some text else none

/-- The value get_thinking text true always produces (shown total below). -/
def strip_result (text : Str) : Str := (get_thinking text true).getD text

/-- Role of an ollama-rs ChatMessage. -/
inductive MessageRole where
  | user
  | assistant
  | system
  | tool
deriving DecidableEq

/-- An ollama-rs ChatMessage as used by chat.rs: role and text content.
(The images and tool_calls fields of the library type are never consulted
by the embedded operations and are omitted.) -/
structure ChatMsg where
  role : MessageRole
  content : Str
deriving DecidableEq

/-- ChatMessage::user. -/
def ChatMsg.user (content : Str) : ChatMsg := { role := .user, content := content }

/-- The Chat session state of chat.rs.  The Ollama connection handle and the
compiled regex are not data: the connection is external (its outcome is a
parameter of generate_response) and the regex is embedded as
thinkingCaptures. -/
structure Chat where
  history : List ChatMsg
  tool_model : Str
  vision_model : Str

/-- Chat::get_history. -/
def Chat.get_history (c : Chat) : List ChatMsg := c.history

/-- Chat::add_message. -/
def Chat.add_message (c : Chat) (m : ChatMsg) : Chat :=
  { c with history := c.history ++ [m] }

/-- Chat::clear_history. -/
def Chat.clear_history (c : Chat) : Chat := { c with history := [] }

/-- The effect of self.history.last_mut() followed by res.content = c:
overwrite the content of the last element, when one exists. -/
def set_last_content : List ChatMsg → Str → List ChatMsg
  | [], _ => []
  | [m], c => [{ m with content := c }]
  | m :: m2 :: rest, c => m :: set_last_content (m2 :: rest) c

/-- chat.rs Chat::generate_response.  The call
coordinator.chat(vec![message]) is external (the ollama-rs Coordinator
drives the network); its outcome is the parameter res: an error value, or
the assistant ChatMessage of the response.  On error the source prints the
error and returns with history untouched; on success it pushes the user
message and the response message, then overwrites the content of the last
history entry with the thinking-stripped text whenever get_thinking
returns Some (which it always does in result mode). -/
def generate_response (st : Chat) (prompt : Str) (res : Except Str ChatMsg) : Chat :=
  match res with
  | .error _ => st
  | .ok rmsg =>
    let text := rmsg.content
    let history := st.history ++ [ChatMsg.user prompt, rmsg]
    match get_thinking text true with
    | some thinking => { st with history := set_last_content history thinking }
    | none => { st with history := history }

/- ----------------------------------------------------------------------
client.rs: JSON values and the serde decoding of ChatResponse lines
---------------------------------------------------------------------- -/

/-- A serde_json::Value.  Numeric tokens are kept as their source
characters; no embedded claim computes with JSON numbers. -/
inductive Json where
  | null
  | bool (b : Bool)
  | num (raw : Str)
  | str (s : Str)
  | arr (elems : List Json)
  | obj (fields : List (Str × Json))

/-- JSON insignificant whitespace. -/
def jWs (c : Char) : Bool := c = ' ' || c = '\t' || c = '\n' || c = '\r'

/-- Skip JSON insignificant whitespace. -/
def skipJWs (s : Str) : Str := s.dropWhile jWs

/-- Value of a hexadecimal digit (code points 0-9, a-f, A-F). -/
def hexVal (c : Char) : Option Nat :=
  let n := c.toNat
  if 48 ≤ n ∧ n ≤ 57 then some (n - 48)
  else if 97 ≤ n ∧ n ≤ 102 then some (n - 87)
  else if 65 ≤ n ∧ n ≤ 70 then some (n - 55)
  else none

/-- Four hexadecimal digits of a \uXXXX escape. -/
def parseHex4 : Str → Option (Nat × Str)
  | a :: b :: c :: d :: rest =>
    match hexVal a, hexVal b, hexVal c, hexVal d with
    | some x, some y, some z, some w => some (((x * 16 + y) * 16 + z) * 16 + w, rest)
    | _, _, _, _ => none
  | _ => none

/-- Body of a JSON string, after the opening quote; returns the decoded
content and the input after the closing quote.  Handles the standard
escapes; surrogate-pair recombination for \u escapes is not modelled (no
embedded input uses them). -/
def parseStringBody : Nat → Str → Option (Str × Str)
  | 0, _ => none
  | _ + 1, [] => none
  | fuel + 1, c :: cs =>
    if c = '"' then some ([], cs)
    else if c = '\\' then
      match cs with
      | [] => none
      | e :: cs2 =>
        let esc : Option (Char × Str) :=
          if e = '"' then some ('"', cs2)
          else if e = '\\' then some ('\\', cs2)
          else if e = '/' then some ('/', cs2)
          else if e = 'n' then some ('\n', cs2)
          else if e = 't' then some ('\t', cs2)
          else if e = 'r' then some ('\r', cs2)
          else if e = 'b' then some ('\x08', cs2)
          else if e = 'f' then some ('\x0c', cs2)
          else if e = 'u' then (parseHex4 cs2).map (fun p => (Char.ofNat p.1, p.2))
          else none
        match esc with
        | none => none
        | some (ch, rest) => (parseStringBody fuel rest).map (fun p => (ch :: p.1, p.2))
    else (parseStringBody fuel cs).map (fun p => (c :: p.1, p.2))

/-- A JSON number token: sign, integer digits, optional fraction, optional
exponent.  The raw characters are returned (leading-zero strictness is not
modelled; no embedded claim depends on numeric tokens). -/
def parseNumToken (s : Str) : Option (Str × Str) :=
  let (sgn, s1) : Str × Str :=
    match s with
    | '-' :: r => (['-'], r)
    | r => ([], r)
  let ip := s1.takeWhile Char.isDigit
  let r1 := s1.dropWhile Char.isDigit
  if ip.isEmpty then none
  else
    let (fp, r2) : Str × Str :=
      match r1 with
      | '.' :: fr =>
        let fd := fr.takeWhile Char.isDigit
        if fd.isEmpty then (['.'], fr)
        else ('.' :: fd, fr.dropWhile Char.isDigit)
      | _ => ([], r1)
    if fp = ['.'] then none
    else
      match r2 with
      | 'e' :: er =>
        let (es, er1) : Str × Str :=
          match er with
          | '-' :: t => (['-'], t)
          | '+' :: t => (['+'], t)
          | t => ([], t)
        let ed := er1.takeWhile Char.isDigit
        if ed.isEmpty then none
        else some (sgn ++ ip ++ fp ++ 'e' :: es ++ ed, er1.dropWhile Char.isDigit)
      | 'E' :: er =>
        let (es, er1) : Str × Str :=
          match er with
          | '-' :: t => (['-'], t)
          | '+' :: t => (['+'], t)
          | t => ([], t)
        let ed := er1.takeWhile Char.isDigit
        if ed.isEmpty then none
        else some (sgn ++ ip ++ fp ++ 'E' :: es ++ ed, er1.dropWhile Char.isDigit)
      | _ => some (sgn ++ ip ++ fp, r2)

mutual

/-- Parse one JSON value (fuel-driven; a fuel of input length + 1 always
suffices since every recursive step consumes input). -/
def parseValue : Nat → Str → Option (Json × Str)
  | 0, _ => none
  | fuel + 1, s0 =>
    match skipJWs s0 with
    | [] => none
    | c :: cs =>
      if c = '"' then
        (parseStringBody (cs.length + 1) cs).map (fun p => (Json.str p.1, p.2))
      else if c = '{' then
        match skipJWs cs with
        | '}' :: r => some (Json.obj [], r)
        | _ => (parseMembers fuel cs).map (fun p => (Json.obj p.1, p.2))
      else if c = '[' then
        match skipJWs cs with
        | ']' :: r => some (Json.arr [], r)
        | _ => (parseElems fuel cs).map (fun p => (Json.arr p.1, p.2))
      else if c = 't' then
        match cs with
        | 'r' :: 'u' :: 'e' :: r => some (Json.bool true, r)
        | _ => none
      else if c = 'f' then
        match cs with
        | 'a' :: 'l' :: 's' :: 'e' :: r => some (Json.bool false, r)
        | _ => none
      else if c = 'n' then
        match cs with
        | 'u' :: 'l' :: 'l' :: r => some (Json.null, r)
        | _ => none
      else
        (parseNumToken (c :: cs)).map (fun p => (Json.num p.1, p.2))

/-- Parse the members of a JSON object, after the opening brace (the input
is known not to start, after whitespace, with a closing brace). -/
def parseMembers : Nat → Str → Option (List (Str × Json) × Str)
  | 0, _ => none
  | fuel + 1, s =>
    match skipJWs s with
    | '"' :: cs =>
      match parseStringBody (cs.length + 1) cs with
      | none => none
      | some (key, r1) =>
        match skipJWs r1 with
        | ':' :: r2 =>
          match parseValue fuel r2 with
          | none => none
          | some (v, r3) =>
            match skipJWs r3 with
            | ',' :: r4 => (parseMembers fuel r4).map (fun p => ((key, v) :: p.1, p.2))
            | '}' :: r4 => some ([(key, v)], r4)
            | _ => none
        | _ => none
    | _ => none

/-- Parse the elements of a JSON array, after the opening bracket (the
input is known not to start, after whitespace, with a closing bracket). -/
def parseElems : Nat → Str → Option (List Json × Str)
  | 0, _ => none
  | fuel + 1, s =>
    match parseValue fuel s with
    | none => none
    | some (v, r1) =>
      match skipJWs r1 with
      | ',' :: r2 => (parseElems fuel r2).map (fun p => (v :: p.1, p.2))
      | ']' :: r2 => some ([v], r2)
      | _ => none

end

/-- serde_json::from_str's surface: parse one JSON value and require that
nothing but whitespace follows it. -/
def parseJson (s : Str) : Option Json :=
  match parseValue (s.length + 1) s with
  | some (v, rest) => if (skipJWs rest).isEmpty then some v else none
  | none => none

/-- client.rs struct FunctionCall: name, arguments (any Value), optional
index (u32). -/
structure FunctionCall where
  name : Str
  arguments : Json
  index : Option Nat

/-- client.rs struct ToolCall: optional id, optional call type (the JSON
field "type"), and the function payload. -/
structure ToolCall where
  id : Option Str
  call_type : Option Str
  function : FunctionCall

/-- client.rs struct Message: role, content, optional tool calls. -/
structure Message where
  role : Str
  content : Str
  tool_calls : Option (List ToolCall)

/-- client.rs struct ChatResponse: one decoded NDJSON frame. -/
structure ChatResponse where
  model : Str
  created_at : Str
  message : Message
  done : Bool
  done_reason : Option Str

/-- Look a key up in decoded object fields (first occurrence; none of the
embedded inputs carries duplicate keys, which serde would reject). -/
def objGet : List (Str × Json) → Str → Option Json
  | [], _ => none
  | (k, v) :: rest, key => if k = key then some v else objGet rest key

/-- Value::as_str. -/
def Json.asStr? : Json → Option Str
  | .str s => some s
  | _ => none

/-- serde deserialization of a bool field's value. -/
def Json.asBool? : Json → Option Bool
  | .bool b => some b
  | _ => none

/-- serde deserialization of an Option of String field: an absent field and
JSON null give None, a string gives Some, anything else is an error. -/
def optStrField : Option Json → Option (Option Str)
  | none => some none
  | some .null => some none
  | some (.str s) => some (some s)
  | some _ => none

/-- Digits to a natural number. -/
def digitsToNat (ds : Str) : Nat :=
  ds.foldl (fun acc c => acc * 10 + (c.toNat - '0'.toNat)) 0

/-- serde deserialization of an Option of u32 field. -/
def u32Field : Option Json → Option (Option Nat)
  | none => some none
  | some .null => some none
  | some (.num raw) =>
    if !raw.isEmpty && raw.all Char.isDigit && digitsToNat raw < 2 ^ 32 then
      some (some (digitsToNat raw))
    else none
  | some _ => none

/-- serde deserialization of FunctionCall: name (string, required),
arguments (any value, required), index (optional u32). -/
def decodeFunctionCall : Json → Option FunctionCall
  | .obj fs =>
    match (objGet fs (str "name")).bind Json.asStr? with
    | none => none
    | some name =>
      match objGet fs (str "arguments") with
      | none => none
      | some args =>
        match u32Field (objGet fs (str "index")) with
        | none => none
        | some idx => some { name := name, arguments := args, index := idx }
  | _ => none

/-- serde deserialization of ToolCall: optional id, optional "type",
required function. -/
def decodeToolCall : Json → Option ToolCall
  | .obj fs =>
    match optStrField (objGet fs (str "id")) with
    | none => none
    | some idv =>
      match optStrField (objGet fs (str "type")) with
      | none => none
      | some tyv =>
        match (objGet fs (str "function")).bind decodeFunctionCall with
        | none => none
        | some f => some { id := idv, call_type := tyv, function := f }
  | _ => none

/-- serde deserialization of the tool_calls field: absent or null give
None, an array gives the element-wise decoding (any element failing fails
the whole line). -/
def decodeToolCallsField : Option Json → Option (Option (List ToolCall))
  | none => some none
  | some .null => some none
  | some (.arr xs) => (xs.mapM decodeToolCall).map some
  | some _ => none

/-- serde deserialization of Message. -/
def decodeMessage : Json → Option Message
  | .obj fs =>
    match (objGet fs (str "role")).bind Json.asStr? with
    | none => none
    | some role =>
      match (objGet fs (str "content")).bind Json.asStr? with
      | none => none
      | some content =>
        match decodeToolCallsField (objGet fs (str "tool_calls")) with
        | none => none
        | some tcs => some { role := role, content := content, tool_calls := tcs }
  | _ => none

/-- serde deserialization of ChatResponse (unknown fields are ignored, as
serde does by default). -/
def decodeChatResponse : Json → Option ChatResponse
  | .obj fs =>
    match (objGet fs (str "model")).bind Json.asStr? with
    | none => none
    | some model =>
      match (objGet fs (str "created_at")).bind Json.asStr? with
      | none => none
      | some created =>
        match (objGet fs (str "message")).bind decodeMessage with
        | none => none
        | some message =>
          match (objGet fs (str "done")).bind Json.asBool? with
          | none => none
          | some done =>
            match optStrField (objGet fs (str "done_reason")) with
            | none => none
            | some dr =>
              some { model := model, created_at := created, message := message,
                     done := done, done_reason := dr }
  | _ => none

/-- serde_json::from_str::<ChatResponse> applied to one line. -/
def decodeLine (line : Str) : Option ChatResponse :=
  (parseJson line).bind decodeChatResponse

/- ----------------------------------------------------------------------
client.rs: execute_tool
---------------------------------------------------------------------- -/

/-- serde_json Value indexing value[key]: field of an object, Null when
the key is missing or the value is not an object. -/
def jIndex (j : Json) (key : Str) : Json :=
  match j with
  | .obj fs => (objGet fs key).getD .null
  | _ => .null

/-- Rust str::parse::<f64> on the plain decimal literals this program can
meet: optional sign, integer digits, optional fraction.  (Exponent forms,
inf and NaN are not modelled; the exact binary rounding of f64 is modelled
by exact rational arithmetic.  No claim depends on this branch's numeric
output.) -/
def parseDecQ (s : Str) : Option ℚ :=
  let (neg, s1) : Bool × Str :=
    match s with
    | '-' :: r => (true, r)
    | '+' :: r => (false, r)
    | r => (false, r)
  let ip := s1.takeWhile Char.isDigit
  let r1 := s1.dropWhile Char.isDigit
  match r1 with
  | [] =>
    if ip.isEmpty then none
    else
      let v : ℚ := (digitsToNat ip : ℚ)
      some (if neg then -v else v)
  | '.' :: fr =>
    let fd := fr.takeWhile Char.isDigit
    if !(fr.dropWhile Char.isDigit).isEmpty then none
    else if ip.isEmpty && fd.isEmpty then none
    else
      let v : ℚ := (digitsToNat ip : ℚ) + (digitsToNat fd : ℚ) / ((10 : ℚ) ^ fd.length)
      some (if neg then -v else v)
  | _ => none

/-- Decimal digits of a natural number (fuel-driven worker). -/
def natToStrGo : Nat → Nat → Str
  | 0, _ => []
  | fuel + 1, n =>
    if n < 10 then [Char.ofNat ('0'.toNat + n)]
    else natToStrGo fuel (n / 10) ++ [Char.ofNat ('0'.toNat + n % 10)]

/-- Decimal representation of a natural number. -/
def natToStr (n : Nat) : Str := natToStrGo (n + 1) n

/-- Decimal digits of a proper fraction rem/den (fuel-bounded long
division, stopping when the remainder vanishes). -/
def fracDigits : Nat → Nat → Nat → Str
  | 0, _, _ => []
  | fuel + 1, rem, den =>
    if rem = 0 then []
    else Char.ofNat ('0'.toNat + rem * 10 / den) :: fracDigits fuel (rem * 10 % den) den

/-- Display of the rational result of the calculate tool (models f64's
Display for the terminating decimals this branch produces). -/
def qToStr (q : ℚ) : Str :=
  let sgn : Str := if q < 0 then ['-'] else []
  let n := q.num.natAbs
  let d := q.den
  if n % d = 0 then sgn ++ natToStr (n / d)
  else sgn ++ natToStr (n / d) ++ '.' :: fracDigits 64 (n % d) d

/-- client.rs OllamaClient::execute_tool.  Every branch returns Ok: the
get_weather branch formats a canned report from the location argument; the
calculate branch handles a single + or a single * over f64 operands
(split on the operator, two parts required, each part trimmed and parsed
with unwrap_or(0.0)); every other name, i.e. every tool not registered in
this match, yields the fixed "Tool not implemented" text. -/
def execute_tool (function : FunctionCall) : Except Str Str :=
  if function.name = str "get_weather" then
    let location := ((jIndex function.arguments (str "location")).asStr?).getD (str "Unknown")
    .ok (str "Weather in " ++ location ++ str ": Sunny, 22°C")
  else if function.name = str "calculate" then
    let expression := ((jIndex function.arguments (str "expression")).asStr?).getD (str "0")
    if expression.contains '+' then
      match splitOnC '+' expression with
      | [p0, p1] =>
        let a := (parseDecQ (trim p0)).getD 0
        let b := (parseDecQ (trim p1)).getD 0
        .ok (qToStr (a + b))
      | _ => .ok (str "Invalid expression")
    else if expression.contains '*' then
      match splitOnC '*' expression with
      | [p0, p1] =>
        let a := (parseDecQ (trim p0)).getD 0
        let b := (parseDecQ (trim p1)).getD 0
        .ok (qToStr (a * b))
      | _ => .ok (str "Invalid expression")
    else .ok (str "Calculation not supported")
  else .ok (str "Tool not implemented")

/-- The text carried by the (always Ok) result of execute_tool. -/
def execResult (function : FunctionCall) : Str :=
  match execute_tool function with
  | .ok s => s
  | .error s => s

/-- The fixed payload of the unknown-tool branch. -/
def toolNotImplemented : Str := str "Tool not implemented"

/- ----------------------------------------------------------------------
client.rs: the streaming loop and the tool continuation
---------------------------------------------------------------------- -/

/-- The inner for-loop of chat_stream_with_tools_impl over the lines of one
chunk, carrying the accumulated content and tool-call list.  Blank lines
are skipped; a line that fails to decode is reported and skipped; a
decoded frame appends its non-empty content and extends the tool-call
list; a frame with done = true ends the loop: when the accumulated
tool-call list is non-empty the function executes the tools and returns
into handle_tool_results (flag true), otherwise it breaks out of the
line loop only (flag false), leaving the remaining lines of this chunk
unprocessed but the chunk loop running. -/
def chat_stream_lines : List Str → Str → List ToolCall → Str × List ToolCall × Bool
  | [], acc, tcs => (acc, tcs, false)
  | line :: rest, acc, tcs =>
    if isBlankLine line then chat_stream_lines rest acc tcs
    else
      match decodeLine line with
      | none => chat_stream_lines rest acc tcs
      | some response =>
        let acc := if response.message.content.isEmpty then acc
                   else acc ++ response.message.content
        let tcs :=
          match response.message.tool_calls with
          | some more => tcs ++ more
          | none => tcs
        if response.done then (acc, tcs, !tcs.isEmpty)
        else chat_stream_lines rest acc tcs

/-- How one invocation of chat_stream_with_tools_impl ends: the byte stream
ran dry and the function returned Ok(()) (finished), or a done frame with
accumulated tool calls made it return into handle_tool_results
(continued).  Both constructors carry the accumulated content and
tool-call list at that point. -/
inductive StreamOutcome where
  | finished (acc : Str) (tcs : List ToolCall)
  | continued (acc : Str) (tcs : List ToolCall)

/-- The while-let loop of chat_stream_with_tools_impl over received chunks.
Note that the break of the done branch ends only the line loop: with no
pending tool calls the chunk loop keeps awaiting (and decoding) further
chunks until the stream itself ends. -/
def chat_stream_chunks : List Str → Str → List ToolCall → StreamOutcome
  | [], acc, tcs => .finished acc tcs
  | chunk :: rest, acc, tcs =>
    match chat_stream_lines (rustLines chunk) acc tcs with
    | (acc, tcs, true) => .continued acc tcs
    | (acc, tcs, false) => chat_stream_chunks rest acc tcs

/-- client.rs chat_stream_with_tools_impl on the data path: the request
messages are serialized into the HTTP body and play no further part in
the streaming loop (in particular the tool-continuation call
handle_tool_results(current_tool_calls, model) receives no messages);
the chunks are the successive bodies yielded by bytes_stream. -/
def chat_stream_with_tools_impl (messages : List Message) (chunks : List Str) :
    StreamOutcome :=
  let _ := messages
  chat_stream_chunks chunks [] []

/-- Accumulated content at the end of the streaming loop. -/
def outcomeAcc : StreamOutcome → Str
  | .finished acc _ => acc
  | .continued acc _ => acc

/-- All lines of a delivered chunk sequence, chunk by chunk. -/
def allLines (chunks : List Str) : List Str := (chunks.map rustLines).flatten

/-- The frames of a line sequence: non-blank lines that decode. -/
def framesOfLines (ls : List Str) : List ChatResponse :=
  ls.filterMap (fun l => if isBlankLine l then none else decodeLine l)

/-- Concatenation of every frame's message content, in arrival order. -/
def contentsOf (ls : List Str) : Str :=
  ((framesOfLines ls).map (fun f => f.message.content)).flatten

/-- Concatenation of every frame's tool calls, in arrival order. -/
def toolsOf (ls : List Str) : List ToolCall :=
  ((framesOfLines ls).map (fun f => (f.message.tool_calls).getD [])).flatten

/-- Every line is blank or decodes to a frame with done = false. -/
def cleanLines : List Str → Bool
  | [] => true
  | l :: rest =>
    if isBlankLine l then cleanLines rest
    else
      match decodeLine l with
      | none => false
      | some f => !f.done && cleanLines rest

/-- Every non-blank line decodes, and a done = true frame is followed by
blank lines only (so it is the final frame). -/
def goodLines : List Str → Bool
  | [] => true
  | l :: rest =>
    if isBlankLine l then goodLines rest
    else
      match decodeLine l with
      | none => false
      | some f => if f.done then rest.all isBlankLine else goodLines rest

/-- A tool-result turn of handle_tool_results_impl. -/
def mkToolMsg (content : Str) : Message :=
  { role := str "tool", content := content, tool_calls := none }

/-- The assistant turn handle_tool_results_impl places first: empty
content, carrying the tool calls. -/
def assistantToolsMsg (tcs : List ToolCall) : Message :=
  { role := str "assistant", content := [], tool_calls := some tcs }

/-- The done-branch loop of chat_stream_with_tools_impl (lines 147-154):
execute every accumulated tool call in order, printing each result.
Returns the printed results and the trace of executor invocations; the ?
operator aborts on the first executor error. -/
def printToolResults : List ToolCall → Except Str (List Str × List FunctionCall)
  | [] => .ok ([], [])
  | tc :: rest =>
    match execute_tool tc.function with
    | .error e => .error e
    | .ok r =>
      match printToolResults rest with
      | .error e => .error e
      | .ok (rs, tr) => .ok (r :: rs, tc.function :: tr)

/-- The loop of handle_tool_results_impl (lines 231-238): execute every
tool call again, in order, and push a tool-role turn whose content is the
result.  Returns the turns and the trace of executor invocations. -/
def toolTurns : List ToolCall → Except Str (List Message × List FunctionCall)
  | [] => .ok ([], [])
  | tc :: rest =>
    match execute_tool tc.function with
    | .error e => .error e
    | .ok r =>
      match toolTurns rest with
      | .error e => .error e
      | .ok (ms, tr) => .ok (mkToolMsg r :: ms, tc.function :: tr)

/-- client.rs handle_tool_results_impl, up to the recursive re-request: the
message list it builds and passes to chat_stream_with_tools as the next
request's full message list - the assistant turn carrying the tool calls,
then one tool turn per executed call, and nothing else (the function
receives no prior messages). -/
def handle_tool_results_messages (tcs : List ToolCall) : Except Str (List Message) :=
  match toolTurns tcs with
  | .error e => .error e
  | .ok (ms, _) => .ok (assistantToolsMsg tcs :: ms)

/-- One Executing pass, as the code performs it on a done frame with a
non-empty tool-call list: first the printing loop of the done branch, then
handle_tool_results_impl.  Returns the printed results, the messages of
the continuation request, and the combined executor-invocation trace. -/
def executing_pass (tcs : List ToolCall) :
    Except Str (List Str × List Message × List FunctionCall) :=
  match printToolResults tcs with
  | .error e => .error e
  | .ok (printed, tr1) =>
    match toolTurns tcs with
    | .error e => .error e
    | .ok (ms, tr2) => .ok (printed, assistantToolsMsg tcs :: ms, tr1 ++ tr2)

/-- The message list of the continuation request that one invocation of
chat_stream_with_tools_impl issues, when it issues one: the streaming loop
must have returned into handle_tool_results, and the messages are built by
handle_tool_results_messages from the accumulated tool calls alone. -/
def next_request_messages (messages : List Message) (chunks : List Str) :
    Option (Except Str (List Message)) :=
  match chat_stream_with_tools_impl messages chunks with
  | .continued _ tcs => some (handle_tool_results_messages tcs)
  | .finished _ _ => none

/- ----------------------------------------------------------------------
Concrete stream inputs used by the counterexamples and witnesses
---------------------------------------------------------------------- -/

/-- A complete NDJSON frame line: content "A", done true. -/
def lineDoneA : Str :=
  str "\x7b\"model\":\"m\",\"created_at\":\"t\",\"message\":\x7b\"role\":\"assistant\",\"content\":\"A\"\x7d,\"done\":true\x7d"

/-- A complete NDJSON frame line: content "B", done false. -/
def lineB : Str :=
  str "\x7b\"model\":\"m\",\"created_at\":\"t\",\"message\":\x7b\"role\":\"assistant\",\"content\":\"B\"\x7d,\"done\":false\x7d"

/-- A complete NDJSON frame line: content "hi", done true. -/
def lineHi : Str :=
  str "\x7b\"model\":\"m\",\"created_at\":\"t\",\"message\":\x7b\"role\":\"assistant\",\"content\":\"hi\"\x7d,\"done\":true\x7d"

/-- A complete NDJSON frame line carrying one tool call of an unregistered
tool named foo, done true. -/
def lineToolFoo : Str :=
  str "\x7b\"model\":\"m\",\"created_at\":\"t\",\"message\":\x7b\"role\":\"assistant\",\"content\":\"\",\"tool_calls\":[\x7b\"function\":\x7b\"name\":\"foo\",\"arguments\":\x7b\x7d\x7d\x7d]\x7d,\"done\":true\x7d"

/-- lineDoneA delivered as one newline-terminated chunk. -/
def chunkDoneA : Str := lineDoneA ++ ['\n']

/-- lineB delivered as one newline-terminated chunk. -/
def chunkB : Str := lineB ++ ['\n']

/-- lineHi delivered as one newline-terminated chunk. -/
def chunkHiWhole : Str := lineHi ++ ['\n']

/-- lineToolFoo delivered as one newline-terminated chunk. -/
def chunkTool : Str := lineToolFoo ++ ['\n']

/-- The first part of chunkHiWhole cut mid-line (inside the key "done"). -/
def c3Part1 : Str :=
  str "\x7b\"model\":\"m\",\"created_at\":\"t\",\"message\":\x7b\"role\":\"assistant\",\"content\":\"hi\"\x7d,\"do"

/-- The second part of chunkHiWhole cut mid-line. -/
def c3Part2 : Str := str "ne\":true\x7d\n"

/-- A prior conversation of one user turn. -/
def c1Prior : List Message :=
  [{ role := str "user", content := str "hi", tool_calls := none }]

/-- The tool call decoded from lineToolFoo: the unregistered tool foo with
empty arguments. -/
def fooToolCall : ToolCall :=
  { id := none, call_type := none,
    function := { name := str "foo", arguments := Json.obj [], index := none } }

/- ----------------------------------------------------------------------
General lemmas about the string helpers
---------------------------------------------------------------------- -/

theorem hasPrefix_refl : ∀ s : Str, hasPrefix s s = true
  | [] => rfl
  | c :: cs => by simp [hasPrefix, hasPrefix_refl cs]

theorem hasPrefix_iff : ∀ p s : Str, hasPrefix p s = true ↔ ∃ t, s = p ++ t
  | [], s => by simp [hasPrefix]
  | p :: ps, [] => by simp [hasPrefix]
  | p :: ps, c :: cs => by
    constructor
    · intro h
      by_cases hpc : p = c
      · subst hpc
        simp [hasPrefix] at h
        obtain ⟨t, ht⟩ := (hasPrefix_iff ps cs).mp h
        exact ⟨t, by simp [ht]⟩
      · simp [hasPrefix, hpc] at h
    · rintro ⟨t, ht⟩
      obtain ⟨hc, hcs⟩ := by simpa using ht
      subst hc
      simp [hasPrefix]
      exact (hasPrefix_iff ps cs).mpr ⟨t, hcs⟩

theorem hasPrefix_of_append {p q s : Str} (h : hasPrefix (p ++ q) s = true) :
    hasPrefix p s = true := by
  obtain ⟨t, ht⟩ := (hasPrefix_iff _ _).mp h
  exact (hasPrefix_iff _ _).mpr ⟨q ++ t, by simp [ht]⟩

theorem splitFirst_eq : ∀ {pat s a b : Str}, splitFirst pat s = some (a, b) →
    s = a ++ pat ++ b := by
  intro pat s
  induction s with
  | nil => intro a b h; simp [splitFirst] at h
  | cons c cs ih =>
    intro a b h
    by_cases hp : hasPrefix pat (c :: cs) = true
    · rw [splitFirst, if_pos hp] at h
      obtain ⟨t, ht⟩ := (hasPrefix_iff _ _).mp hp
      obtain ⟨ha, hb⟩ := by simpa using h
      subst ha; subst hb
      simp [ht]
    · rw [splitFirst, if_neg hp] at h
      cases hsf : splitFirst pat cs with
      | none => rw [hsf] at h; simp at h
      | some p =>
        rw [hsf] at h
        simp at h
        obtain ⟨ha, hb⟩ := h
        have := ih hsf
        subst hb
        rw [← ha]
        simp [this]

theorem splitFirst_min : ∀ {pat s a b : Str}, splitFirst pat s = some (a, b) →
    ∀ i < a.length, hasPrefix pat (List.drop i s) = false := by
  intro pat s
  induction s with
  | nil => intro a b h; simp [splitFirst] at h
  | cons c cs ih =>
    intro a b h i hi
    by_cases hp : hasPrefix pat (c :: cs) = true
    · rw [splitFirst, if_pos hp] at h
      obtain ⟨ha, _⟩ := by simpa using h
      subst ha
      simp at hi
    · rw [splitFirst, if_neg hp] at h
      cases hsf : splitFirst pat cs with
      | none => rw [hsf] at h; simp at h
      | some p =>
        rw [hsf] at h
        simp at h
        obtain ⟨ha, hb⟩ := h
        cases i with
        | zero => simpa using hp
        | succ j =>
          rw [List.drop_succ_cons]
          have hj : j < p.1.length := by
            rw [← ha] at hi
            simpa using hi
          exact ih (by rw [hsf]) j hj

theorem hasPrefix_nil_of_ne {pat : Str} (h : pat ≠ []) : hasPrefix pat [] = false := by
  cases pat with
  | nil => exact absurd rfl h
  | cons c cs => rfl

theorem containsSub_drop {pat s : Str} (hne : pat ≠ [])
    (h : containsSub pat s = false) : ∀ i, hasPrefix pat (List.drop i s) = false := by
  induction s with
  | nil => intro i; simpa using hasPrefix_nil_of_ne hne
  | cons c cs ih =>
    intro i
    unfold containsSub splitFirst at h
    by_cases hp : hasPrefix pat (c :: cs) = true
    · rw [if_pos hp] at h; simp at h
    · rw [if_neg hp] at h
      have hcs : containsSub pat cs = false := by
        unfold containsSub
        cases hsf : splitFirst pat cs with
        | none => rfl
        | some p => rw [hsf] at h; simp at h
      cases i with
      | zero => simpa using hp
      | succ j => rw [List.drop_succ_cons]; exact ih hcs j

theorem drop_append_len : ∀ (u r : List Char) (i : Nat),
    List.drop (u.length + i) (u ++ r) = List.drop i r := by
  intro u
  induction u with
  | nil => intro r i; simp
  | cons c cs ih => intro r i; simpa [Nat.succ_add] using ih r i

theorem hasPrefix_suffix_false {pat r t : Str} (u : Str)
    (h : ∀ i, hasPrefix pat (List.drop i r) = false) (hu : u ++ t = r) :
    hasPrefix pat t = false := by
  have := h u.length
  rw [← hu] at this
  simpa [drop_append_len u t 0] using this

theorem dropTrailingWs_cons (c : Char) (cs : Str) :
    dropTrailingWs (c :: cs) =
      if (dropTrailingWs cs).isEmpty && isWs c then [] else c :: dropTrailingWs cs := rfl

theorem dropTrailingWs_of_all (l : Str) (h : l.all isWs = true) : dropTrailingWs l = [] := by
  induction l with
  | nil => rfl
  | cons c cs ih =>
    obtain ⟨h1, h2⟩ : isWs c = true ∧ cs.all isWs = true := by simpa using h
    rw [dropTrailingWs_cons, ih h2]
    simp [h1]

theorem all_of_dropTrailingWs_nil (l : Str) (h : dropTrailingWs l = []) :
    l.all isWs = true := by
  induction l with
  | nil => rfl
  | cons c cs ih =>
    rw [dropTrailingWs_cons] at h
    by_cases hcond : ((dropTrailingWs cs).isEmpty && isWs c) = true
    · obtain ⟨h1, h2⟩ := by simpa using hcond
      simp [h2, ih (by simpa [List.isEmpty_iff] using h1)]
    · rw [if_neg hcond] at h
      simp at h

theorem dropWhileWs_nil_iff (l : Str) : l.dropWhile isWs = [] ↔ l.all isWs = true := by
  rw [List.dropWhile_eq_nil_iff, List.all_eq_true]

theorem dropTrailingWs_cons_of_not_all {c : Char} {cs : Str}
    (h : ¬ (c :: cs).all isWs = true) :
    dropTrailingWs (c :: cs) = c :: dropTrailingWs cs := by
  rw [dropTrailingWs_cons, if_neg]
  intro hcond
  obtain ⟨h1, h2⟩ := by simpa using hcond
  exact h (by simp [h2, all_of_dropTrailingWs_nil cs (by simpa [List.isEmpty_iff] using h1)])

theorem splitAtEnd_append : ∀ r : Str, (splitAtEnd r).1 ++ (splitAtEnd r).2 = r := by
  intro r
  induction r with
  | nil => rfl
  | cons c cs ih =>
    unfold splitAtEnd
    by_cases hcond : ((c :: cs).dropWhile isWs).isEmpty || hasPrefix endTag ((c :: cs).dropWhile isWs)
    · simp [hcond]
    · simp only [hcond, Bool.false_eq_true, if_false]
      simpa using ih

theorem drop_parts_suffix {pat w r s : Str}
    (h : ∀ i, hasPrefix pat (List.drop i s) = false) (hsplit : w ++ r = s) :
    ∀ i, hasPrefix pat (List.drop i r) = false := by
  intro i
  have h2 := h (w.length + i)
  rw [← hsplit, drop_append_len] at h2
  exact h2

theorem splitAtEnd_no_marker : ∀ r : Str,
    (∀ i, hasPrefix endTag (List.drop i r) = false) →
    (splitAtEnd r).1 = dropTrailingWs r := by
  intro r
  induction r with
  | nil => intro _; rfl
  | cons c cs ih =>
    intro h
    have hmk : hasPrefix endTag ((c :: cs).dropWhile isWs) = false :=
      hasPrefix_suffix_false ((c :: cs).takeWhile isWs) h
        (List.takeWhile_append_dropWhile isWs (c :: cs))
    by_cases hemp : ((c :: cs).dropWhile isWs).isEmpty = true
    · have hall : (c :: cs).all isWs = true :=
        (dropWhileWs_nil_iff (c :: cs)).mp (by simpa [List.isEmpty_iff] using hemp)
      unfold splitAtEnd
      simp [hemp, dropTrailingWs_of_all _ hall]
    · have h' : ∀ i, hasPrefix endTag (List.drop i cs) = false := fun i => by
        simpa [List.drop_succ_cons] using h (i + 1)
      have hnotall : ¬ (c :: cs).all isWs = true := by
        intro hall
        exact hemp (by simp [List.isEmpty_iff, (dropWhileWs_nil_iff (c :: cs)).mpr hall])
      unfold splitAtEnd
      simp [hemp, hmk, ih h', dropTrailingWs_cons_of_not_all hnotall]

theorem thinkingCaptures_no_end {text a b : Str}
    (hsf : splitFirst thinkTag text = some (a, b))
    (hno : containsSub endTag text = false) :
    thinkingCaptures text = some (thinkTag ++ b, trim b) := by
  have hdropText : ∀ i, hasPrefix endTag (List.drop i text) = false :=
    containsSub_drop (by decide) hno
  have htext : text = (a ++ thinkTag) ++ b := by
    simpa [List.append_assoc] using splitFirst_eq hsf
  have hdropb : ∀ i, hasPrefix endTag (List.drop i b) = false :=
    drop_parts_suffix hdropText htext.symm
  have hdropr : ∀ i, hasPrefix endTag (List.drop i (b.dropWhile isWs)) = false :=
    drop_parts_suffix hdropb (List.takeWhile_append_dropWhile isWs b)
  have hg1 : (splitAtEnd (b.dropWhile isWs)).1 = dropTrailingWs (b.dropWhile isWs) :=
    splitAtEnd_no_marker _ hdropr
  have htl : hasPrefix endTag (((splitAtEnd (b.dropWhile isWs)).2).dropWhile isWs) = false := by
    apply hasPrefix_suffix_false
      ((splitAtEnd (b.dropWhile isWs)).1 ++ ((splitAtEnd (b.dropWhile isWs)).2).takeWhile isWs)
      hdropr
    rw [List.append_assoc, List.takeWhile_append_dropWhile]
    exact splitAtEnd_append _
  have hfst : thinkTag ++ b.takeWhile isWs ++ (splitAtEnd (b.dropWhile isWs)).1 ++
      (splitAtEnd (b.dropWhile isWs)).2 = thinkTag ++ b := by
    rw [List.append_assoc (thinkTag ++ b.takeWhile isWs), splitAtEnd_append,
      List.append_assoc, List.takeWhile_append_dropWhile]
  simp only [thinkingCaptures, hsf]
  rw [if_neg (by simp [htl])]
  rw [hfst, hg1]
  rfl

theorem replaceAllGo_nilinput (pat rep : Str) : ∀ fuel, replaceAllGo pat rep fuel [] = []
  | 0 => rfl
  | _ + 1 => rfl

theorem replaceAllGo_unique (pat : Str) (hne : pat ≠ []) :
    ∀ (a : Str) (fuel : Nat), a.length + pat.length ≤ fuel →
    (∀ i < a.length, hasPrefix pat (List.drop i (a ++ pat)) = false) →
    replaceAllGo pat [] fuel (a ++ pat) = a := by
  intro a
  induction a with
  | nil =>
    intro fuel hfuel _
    cases pat with
    | nil => exact absurd rfl hne
    | cons c cs =>
      cases fuel with
      | zero => simp at hfuel
      | succ f =>
        simp only [List.nil_append, replaceAllGo, hasPrefix_refl, if_pos]
        rw [List.drop_length]
        simpa using replaceAllGo_nilinput (c :: cs) [] f
  | cons c a' ih =>
    intro fuel hfuel hmin
    cases fuel with
    | zero => simp at hfuel
    | succ f =>
      have h0 : hasPrefix pat (c :: (a' ++ pat)) = false := by
        simpa using hmin 0 (by simp)
      simp only [List.cons_append, replaceAllGo]
      rw [if_neg (by simp [h0])]
      congr 1
      apply ih f (by simp at hfuel ⊢; omega)
      intro i hi
      have := hmin (i + 1) (by simpa using Nat.succ_lt_succ hi)
      simpa [List.drop_succ_cons] using this

theorem replaceAll_unique (pat a : Str) (hne : pat ≠ [])
    (hmin : ∀ i < a.length, hasPrefix pat (List.drop i (a ++ pat)) = false) :
    replaceAll pat [] (a ++ pat) = a := by
  unfold replaceAll
  rw [if_neg (by simpa [List.isEmpty_iff] using hne)]
  exact replaceAllGo_unique pat hne a ((a ++ pat).length + 1) (by simp) hmin

/-- Strip mode of get_thinking on a text with a start marker but no end
marker: the matched span runs from the first start marker to the end of
the text, occurs exactly once, and is removed wholesale; what remains is
the text before the marker, trimmed. -/
theorem get_thinking_strip_no_end {text a b : Str}
    (hsf : splitFirst thinkTag text = some (a, b))
    (hno : containsSub endTag text = false) :
    get_thinking text true = some (trim a) := by
  have hcap := thinkingCaptures_no_end hsf hno
  have htext : text = (a ++ thinkTag) ++ b := by
    simpa [List.append_assoc] using splitFirst_eq hsf
  have hmin : ∀ i < a.length,
      hasPrefix (thinkTag ++ b) (List.drop i (a ++ (thinkTag ++ b))) = false := by
    intro i hi
    have hminthink := splitFirst_min hsf i hi
    rw [htext, List.append_assoc] at hminthink
    cases hx : hasPrefix (thinkTag ++ b) (List.drop i (a ++ (thinkTag ++ b))) with
    | false => rfl
    | true => exact absurd (hasPrefix_of_append hx) (by simp [hminthink])
  have hrepl : replaceAll (thinkTag ++ b) [] (a ++ (thinkTag ++ b)) = a :=
    replaceAll_unique _ _ (List.append_ne_nil_of_left_ne_nil (by decide) b) hmin
  simp only [get_thinking, hcap, if_pos]
  rw [show text = a ++ (thinkTag ++ b) by rw [htext, List.append_assoc], hrepl]

/-- Extract mode of get_thinking on a text with a start marker but no end
marker: the \z alternative of the regex still matches, and group 1 is the
whitespace-trimmed text after the first start marker. -/
theorem get_thinking_extract_no_end {text a b : Str}
    (hsf : splitFirst thinkTag text = some (a, b))
    (hno : containsSub endTag text = false) :
    get_thinking text false = some (trim b) := by
  have hcap := thinkingCaptures_no_end hsf hno
  simp [get_thinking, hcap]

/-- get_thinking in result mode is total: every branch of the source
returns Some. -/
theorem get_thinking_total (text : Str) :
    get_thinking text true = some (strip_result text) := by
  unfold strip_result get_thinking
  cases h : thinkingCaptures text with
  | none => rfl
  | some p => rfl

theorem set_last_content_append : ∀ (xs : List ChatMsg) (m : ChatMsg) (c : Str),
    set_last_content (xs ++ [m]) c = xs ++ [{ m with content := c }]
  | [], m, c => rfl
  | [x], m, c => rfl
  | x :: y :: xs, m, c => by
    have ih := set_last_content_append (y :: xs) m c
    simpa [set_last_content] using ih

theorem generate_response_ok_eq (st : Chat) (prompt : Str) (rmsg : ChatMsg) :
    (generate_response st prompt (.ok rmsg)).get_history =
      st.get_history ++
        [ChatMsg.user prompt, { rmsg with content := strip_result rmsg.content }] := by
  simp only [generate_response, get_thinking_total rmsg.content]
  have hsplit : st.history ++ [ChatMsg.user prompt, rmsg] =
      (st.history ++ [ChatMsg.user prompt]) ++ [rmsg] := by simp
  show Chat.get_history _ = _
  simp only [Chat.get_history]
  rw [hsplit, set_last_content_append]
  simp

/- ----------------------------------------------------------------------
Claims C4, C5, C7, C10
---------------------------------------------------------------------- -/

/-- C4 counterexample.  The claim says that on a text containing the start
marker but no end marker, strip mode returns the original text unchanged.
On the text "A<think>R" the regex matches via its \z alternative, the
match "<think>R" is removed, and strip mode returns "A", not the original
text. -/
theorem c4_counterexample :
    get_thinking (str "A<think>R") true = some (str "A") ∧
    some (str "A") ≠ some (str "A<think>R") := by
  constructor
  · rfl
  · decide

/-- C4 amended: for every text that contains the start marker but no end
marker, strip mode removes everything from the first start marker through
the end of the text and returns the remainder, whitespace-trimmed (the
original text is returned unchanged only when no start marker occurs). -/
theorem c4_strip_removes_marked_tail (text a b : Str)
    (hsf : splitFirst thinkTag text = some (a, b))
    (hno : containsSub endTag text = false) :
    get_thinking text true = some (trim a) :=
  get_thinking_strip_no_end hsf hno

/-- C4 witness: the amended theorem applied at the concrete text
"A<think>R". -/
theorem c4_witness :
    splitFirst thinkTag (str "A<think>R") = some (str "A", str "R") ∧
    containsSub endTag (str "A<think>R") = false ∧
    get_thinking (str "A<think>R") true = some (trim (str "A")) :=
  ⟨by decide, by decide,
    c4_strip_removes_marked_tail (str "A<think>R") (str "A") (str "R")
      (by decide) (by decide)⟩

/-- C5 counterexample.  The claim says that on a text containing the start
marker but no end marker, extract mode returns nothing.  On "A<think>R"
the regex matches via its \z alternative and extract mode returns the
captured group "R", not none. -/
theorem c5_counterexample :
    get_thinking (str "A<think>R") false = some (str "R") ∧
    some (str "R") ≠ (none : Option Str) := by
  constructor
  · rfl
  · decide

/-- C5 amended: for every text that contains the start marker but no end
marker, extract mode returns Some of the whitespace-trimmed text after the
first start marker (it returns none only when no start marker occurs). -/
theorem c5_extract_returns_tail (text a b : Str)
    (hsf : splitFirst thinkTag text = some (a, b))
    (hno : containsSub endTag text = false) :
    get_thinking text false = some (trim b) :=
  get_thinking_extract_no_end hsf hno

/-- C5 witness: the amended theorem applied at the concrete text
"A<think>R". -/
theorem c5_witness :
    splitFirst thinkTag (str "A<think>R") = some (str "A", str "R") ∧
    containsSub endTag (str "A<think>R") = false ∧
    get_thinking (str "A<think>R") false = some (trim (str "R")) :=
  ⟨by decide, by decide,
    c5_extract_returns_tail (str "A<think>R") (str "A") (str "R")
      (by decide) (by decide)⟩

/-- C7: a transport-level failure of the coordinator call in
generate_response (the res.is_err() branch) returns before any history
mutation: the history after the call equals the history before it, with no
user or assistant turn left behind. -/
theorem c7_transport_failure_preserves_history (st : Chat) (prompt e : Str) :
    (generate_response st prompt (.error e)).get_history = st.get_history := rfl

/-- C10: result-mode get_thinking is total (returns Some on every input),
so after a successful generate_response the content of the last history
turn is always overwritten with the strip-mode result; when no start
marker occurs the strip-mode result is the original text unchanged. -/
theorem c10_strip_total_always_overwrites :
    (∀ text : Str, get_thinking text true = some (strip_result text)) ∧
    (∀ (st : Chat) (prompt : Str) (rmsg : ChatMsg),
      (generate_response st prompt (.ok rmsg)).get_history =
        st.get_history ++
          [ChatMsg.user prompt, { rmsg with content := strip_result rmsg.content }]) ∧
    (∀ text : Str, splitFirst thinkTag text = none → get_thinking text true = some text) := by
  refine ⟨get_thinking_total, generate_response_ok_eq, ?_⟩
  intro text h
  simp [get_thinking, thinkingCaptures, h]

/-- C10 witness: the totality and the no-marker case applied at the
concrete text "hello". -/
theorem c10_witness : get_thinking (str "hello") true = some (str "hello") :=
  c10_strip_total_always_overwrites.2.2 (str "hello") (by decide)

theorem execute_tool_isOk (f : FunctionCall) : ∃ s, execute_tool f = .ok s := by
  unfold execute_tool
  dsimp only
  repeat' split
  all_goals exact ⟨_, rfl⟩

theorem map_append_cons_getElem {α β : Type} (g : α → β) (pre : List α) (x : α)
    (post : List α) : ((pre ++ x :: post).map g)[pre.length]? = some (g x) := by
  induction pre with
  | nil => simp
  | cons p ps ih => simpa using ih

theorem cleanLines_cons_parts {l : Str} {rest : List Str}
    (h : cleanLines (l :: rest) = true) (hnb : isBlankLine l = false) :
    ∃ f, decodeLine l = some f ∧ f.done = false ∧ cleanLines rest = true := by
  cases hd : decodeLine l with
  | none => exfalso; simpa [cleanLines, hnb, hd] using h
  | some f =>
    have h2 : f.done = false ∧ cleanLines rest = true := by
      simpa [cleanLines, hnb, hd] using h
    exact ⟨f, rfl, h2.1, h2.2⟩

theorem framesOfLines_cons_blank {l : Str} (rest : List Str) (h : isBlankLine l = true) :
    framesOfLines (l :: rest) = framesOfLines rest := by
  simp [framesOfLines, h]

theorem framesOfLines_cons_frame {l : Str} (rest : List Str) {f : ChatResponse}
    (hnb : isBlankLine l = false) (hd : decodeLine l = some f) :
    framesOfLines (l :: rest) = f :: framesOfLines rest := by
  simp [framesOfLines, hnb, hd]

theorem framesOfLines_nil_of_blank : ∀ ls : List Str, ls.all isBlankLine = true →
    framesOfLines ls = [] := by
  intro ls h
  induction ls with
  | nil => rfl
  | cons l rest ih =>
    obtain ⟨h1, h2⟩ : isBlankLine l = true ∧ rest.all isBlankLine = true := by simpa using h
    rw [framesOfLines_cons_blank rest h1]
    exact ih h2

theorem contentsOf_cons_blank {l : Str} (rest : List Str) (h : isBlankLine l = true) :
    contentsOf (l :: rest) = contentsOf rest := by
  simp [contentsOf, framesOfLines_cons_blank rest h]

theorem contentsOf_cons_frame {l : Str} (rest : List Str) {f : ChatResponse}
    (hnb : isBlankLine l = false) (hd : decodeLine l = some f) :
    contentsOf (l :: rest) = f.message.content ++ contentsOf rest := by
  simp [contentsOf, framesOfLines_cons_frame rest hnb hd]

theorem toolsOf_cons_blank {l : Str} (rest : List Str) (h : isBlankLine l = true) :
    toolsOf (l :: rest) = toolsOf rest := by
  simp [toolsOf, framesOfLines_cons_blank rest h]

theorem toolsOf_cons_frame {l : Str} (rest : List Str) {f : ChatResponse}
    (hnb : isBlankLine l = false) (hd : decodeLine l = some f) :
    toolsOf (l :: rest) = f.message.tool_calls.getD [] ++ toolsOf rest := by
  simp [toolsOf, framesOfLines_cons_frame rest hnb hd]

theorem contentsOf_append (xs ys : List Str) :
    contentsOf (xs ++ ys) = contentsOf xs ++ contentsOf ys := by
  simp [contentsOf, framesOfLines, List.filterMap_append]

theorem chat_stream_lines_cons_frame_step {l : Str} (rest : List Str) {f : ChatResponse}
    (acc : Str) (tcs : List ToolCall)
    (hnb : isBlankLine l = false) (hd : decodeLine l = some f) (hdone : f.done = false) :
    chat_stream_lines (l :: rest) acc tcs =
      chat_stream_lines rest (acc ++ f.message.content)
        (tcs ++ f.message.tool_calls.getD []) := by
  cases htc : f.message.tool_calls with
  | none =>
    by_cases hc : f.message.content.isEmpty = true
    · simp [chat_stream_lines, hnb, hd, hdone, htc, hc, List.isEmpty_iff.mp hc]
    · simp [chat_stream_lines, hnb, hd, hdone, htc, hc]
  | some more =>
    by_cases hc : f.message.content.isEmpty = true
    · simp [chat_stream_lines, hnb, hd, hdone, htc, hc, List.isEmpty_iff.mp hc]
    · simp [chat_stream_lines, hnb, hd, hdone, htc, hc]

theorem chat_stream_lines_cons_done {l : Str} (rest : List Str) {f : ChatResponse}
    (acc : Str) (tcs : List ToolCall)
    (hnb : isBlankLine l = false) (hd : decodeLine l = some f) (hdone : f.done = true) :
    chat_stream_lines (l :: rest) acc tcs =
      (acc ++ f.message.content, tcs ++ f.message.tool_calls.getD [],
        !(tcs ++ f.message.tool_calls.getD []).isEmpty) := by
  cases htc : f.message.tool_calls with
  | none =>
    by_cases hc : f.message.content.isEmpty = true
    · simp [chat_stream_lines, hnb, hd, hdone, htc, hc, List.isEmpty_iff.mp hc]
    · simp [chat_stream_lines, hnb, hd, hdone, htc, hc]
  | some more =>
    by_cases hc : f.message.content.isEmpty = true
    · simp [chat_stream_lines, hnb, hd, hdone, htc, hc, List.isEmpty_iff.mp hc]
    · simp [chat_stream_lines, hnb, hd, hdone, htc, hc]

theorem chat_stream_lines_clean : ∀ (ls : List Str) (acc : Str) (tcs : List ToolCall),
    cleanLines ls = true →
    chat_stream_lines ls acc tcs = (acc ++ contentsOf ls, tcs ++ toolsOf ls, false) := by
  intro ls
  induction ls with
  | nil =>
    intro acc tcs _
    simp [chat_stream_lines, contentsOf, toolsOf, framesOfLines]
  | cons l rest ih =>
    intro acc tcs h
    by_cases hb : isBlankLine l = true
    · have h' : cleanLines rest = true := by simpa [cleanLines, hb] using h
      simp [chat_stream_lines, hb, ih _ _ h', contentsOf_cons_blank rest hb,
        toolsOf_cons_blank rest hb]
    · have hb' : isBlankLine l = false := by simpa using hb
      obtain ⟨f, hd, hdone, hrest⟩ := cleanLines_cons_parts h hb'
      rw [chat_stream_lines_cons_frame_step rest acc tcs hb' hd hdone,
        ih _ _ hrest, contentsOf_cons_frame rest hb' hd, toolsOf_cons_frame rest hb' hd]
      simp [List.append_assoc]

theorem chat_stream_lines_good : ∀ (ls : List Str) (acc : Str) (tcs : List ToolCall),
    goodLines ls = true →
    ∃ flag, chat_stream_lines ls acc tcs = (acc ++ contentsOf ls, tcs ++ toolsOf ls, flag) := by
  intro ls
  induction ls with
  | nil =>
    intro acc tcs _
    exact ⟨false, by simp [chat_stream_lines, contentsOf, toolsOf, framesOfLines]⟩
  | cons l rest ih =>
    intro acc tcs h
    by_cases hb : isBlankLine l = true
    · have h' : goodLines rest = true := by simpa [goodLines, hb] using h
      obtain ⟨flag, hrun⟩ := ih acc tcs h'
      exact ⟨flag, by
        simp [chat_stream_lines, hb, hrun, contentsOf_cons_blank rest hb,
          toolsOf_cons_blank rest hb]⟩
    · have hb' : isBlankLine l = false := by simpa using hb
      cases hd : decodeLine l with
      | none => exfalso; simpa [goodLines, hb', hd] using h
      | some f =>
        cases hdone : f.done with
        | true =>
          have hblank : rest.all isBlankLine = true := by
            simpa [goodLines, hb', hd, hdone] using h
          have hcr : contentsOf rest = [] := by
            simp [contentsOf, framesOfLines_nil_of_blank rest hblank]
          have htr : toolsOf rest = [] := by
            simp [toolsOf, framesOfLines_nil_of_blank rest hblank]
          refine ⟨!(tcs ++ f.message.tool_calls.getD []).isEmpty, ?_⟩
          rw [chat_stream_lines_cons_done rest acc tcs hb' hd hdone,
            contentsOf_cons_frame rest hb' hd, toolsOf_cons_frame rest hb' hd, hcr, htr]
          simp
        | false =>
          have h' : goodLines rest = true := by
            simpa [goodLines, hb', hd, hdone] using h
          obtain ⟨flag, hrun⟩ := ih (acc ++ f.message.content)
            (tcs ++ f.message.tool_calls.getD []) h'
          refine ⟨flag, ?_⟩
          rw [chat_stream_lines_cons_frame_step rest acc tcs hb' hd hdone, hrun,
            contentsOf_cons_frame rest hb' hd, toolsOf_cons_frame rest hb' hd]
          simp [List.append_assoc]

theorem goodLines_of_all_blank : ∀ ls : List Str, ls.all isBlankLine = true →
    goodLines ls = true := by
  intro ls h
  induction ls with
  | nil => rfl
  | cons l rest ih =>
    obtain ⟨h1, h2⟩ : isBlankLine l = true ∧ rest.all isBlankLine = true := by simpa using h
    simpa [goodLines, h1] using ih h2

theorem goodLines_append_blank : ∀ (xs ys : List Str), ys.all isBlankLine = true →
    goodLines (xs ++ ys) = true → goodLines xs = true := by
  intro xs
  induction xs with
  | nil => intro ys _ _; rfl
  | cons l rest ih =>
    intro ys hys h
    rw [List.cons_append] at h
    by_cases hb : isBlankLine l = true
    · have h2 : goodLines (rest ++ ys) = true := by simpa [goodLines, hb] using h
      simpa [goodLines, hb] using ih ys hys h2
    · have hb' : isBlankLine l = false := by simpa using hb
      cases hd : decodeLine l with
      | none => exfalso; simpa [goodLines, hb', hd] using h
      | some f =>
        cases hdone : f.done with
        | true =>
          have hall : (rest ++ ys).all isBlankLine = true := by
            simpa [goodLines, hb', hd, hdone] using h
          have hr : rest.all isBlankLine = true := by
            rw [List.all_append] at hall
            exact ((Bool.and_eq_true _ _).mp hall).1
          simp [goodLines, hb', hd, hdone, hr]
        | false =>
          have h2 : goodLines (rest ++ ys) = true := by
            simpa [goodLines, hb', hd, hdone] using h
          simpa [goodLines, hb', hd, hdone] using ih ys hys h2

theorem goodLines_append_split : ∀ (xs ys : List Str), goodLines (xs ++ ys) = true →
    ¬ ys.all isBlankLine = true → cleanLines xs = true ∧ goodLines ys = true := by
  intro xs
  induction xs with
  | nil => intro ys h _; exact ⟨rfl, h⟩
  | cons l rest ih =>
    intro ys h hys
    rw [List.cons_append] at h
    by_cases hb : isBlankLine l = true
    · have h2 : goodLines (rest ++ ys) = true := by simpa [goodLines, hb] using h
      obtain ⟨hc, hg⟩ := ih ys h2 hys
      exact ⟨by simpa [cleanLines, hb] using hc, hg⟩
    · have hb' : isBlankLine l = false := by simpa using hb
      cases hd : decodeLine l with
      | none => exfalso; simpa [goodLines, hb', hd] using h
      | some f =>
        cases hdone : f.done with
        | true =>
          exfalso
          have hall : (rest ++ ys).all isBlankLine = true := by
            simpa [goodLines, hb', hd, hdone] using h
          rw [List.all_append] at hall
          exact hys ((Bool.and_eq_true _ _).mp hall).2
        | false =>
          have h2 : goodLines (rest ++ ys) = true := by
            simpa [goodLines, hb', hd, hdone] using h
          obtain ⟨hc, hg⟩ := ih ys h2 hys
          exact ⟨by simp [cleanLines, hb', hd, hdone, hc], hg⟩

theorem chat_stream_chunks_good : ∀ (chunks : List Str) (acc : Str) (tcs : List ToolCall),
    goodLines (allLines chunks) = true →
    outcomeAcc (chat_stream_chunks chunks acc tcs) = acc ++ contentsOf (allLines chunks) := by
  intro chunks
  induction chunks with
  | nil =>
    intro acc tcs _
    simp [chat_stream_chunks, allLines, outcomeAcc, contentsOf, framesOfLines]
  | cons c rest ih =>
    intro acc tcs h
    have hall : allLines (c :: rest) = rustLines c ++ allLines rest := by
      simp [allLines]
    rw [hall] at h ⊢
    by_cases hb : (allLines rest).all isBlankLine = true
    · have hgL : goodLines (rustLines c) = true := goodLines_append_blank _ _ hb h
      obtain ⟨flag, hrun⟩ := chat_stream_lines_good (rustLines c) acc tcs hgL
      have hcr : contentsOf (allLines rest) = [] := by
        simp [contentsOf, framesOfLines_nil_of_blank _ hb]
      cases flag with
      | true => simp [chat_stream_chunks, hrun, outcomeAcc, contentsOf_append, hcr]
      | false =>
        have hgr : goodLines (allLines rest) = true := goodLines_of_all_blank _ hb
        simp [chat_stream_chunks, hrun, ih _ _ hgr, contentsOf_append, hcr]
    · obtain ⟨hclean, hgood⟩ := goodLines_append_split _ _ h hb
      have hrun := chat_stream_lines_clean (rustLines c) acc tcs hclean
      simp [chat_stream_chunks, hrun, ih _ _ hgood, contentsOf_append, List.append_assoc]

theorem execute_tool_ok (f : FunctionCall) : execute_tool f = .ok (execResult f) := by
  obtain ⟨s, hs⟩ := execute_tool_isOk f
  rw [hs]
  unfold execResult
  rw [hs]

theorem printToolResults_spec : ∀ tcs : List ToolCall,
    printToolResults tcs = .ok (tcs.map (fun tc => execResult tc.function),
      tcs.map (fun tc => tc.function)) := by
  intro tcs
  induction tcs with
  | nil => rfl
  | cons tc rest ih => simp [printToolResults, execute_tool_ok, ih]

theorem toolTurns_spec : ∀ tcs : List ToolCall,
    toolTurns tcs = .ok (tcs.map (fun tc => mkToolMsg (execResult tc.function)),
      tcs.map (fun tc => tc.function)) := by
  intro tcs
  induction tcs with
  | nil => rfl
  | cons tc rest ih => simp [toolTurns, execute_tool_ok, ih]

theorem handle_tool_results_spec (tcs : List ToolCall) :
    handle_tool_results_messages tcs =
      .ok (assistantToolsMsg tcs :: tcs.map (fun tc => mkToolMsg (execResult tc.function))) := by
  simp [handle_tool_results_messages, toolTurns_spec]

theorem executing_pass_spec (tcs : List ToolCall) :
    executing_pass tcs = .ok (tcs.map (fun tc => execResult tc.function),
      assistantToolsMsg tcs :: tcs.map (fun tc => mkToolMsg (execResult tc.function)),
      tcs.map (fun tc => tc.function) ++ tcs.map (fun tc => tc.function)) := by
  simp [executing_pass, printToolResults_spec, toolTurns_spec]

/- ----------------------------------------------------------------------
Claims C1, C2, C3, C6, C8, C9
---------------------------------------------------------------------- -/

/-- C1 counterexample.  With prior history consisting of one user turn and
a stream whose done frame requests the tool foo, the continuation request
is issued with exactly two turns - the assistant turn with its tool_calls
and one tool turn - not with the prior user turn in front: the roles of
the issued message list are [assistant, tool], while the claim requires
[user, assistant, tool]. -/
theorem c1_counterexample :
    ((next_request_messages c1Prior [chunkTool]).map (fun e =>
      match e with
      | .ok ms => ms.map (fun m => m.role)
      | .error _ => [])) = some [str "assistant", str "tool"] ∧
    (c1Prior ++ [assistantToolsMsg [fooToolCall], mkToolMsg toolNotImplemented]).map
      (fun m => m.role) = [str "user", str "assistant", str "tool"] ∧
    some [str "assistant", str "tool"] ≠ some [str "user", str "assistant", str "tool"] :=
  ⟨rfl, rfl, by decide⟩

/-- C1 amended: the continuation request is issued with only the assistant
turn (carrying the tool calls) followed by one tool-role turn per executed
call, in the same order; the prior turns are not included - the
continuation is independent of the request messages, which
handle_tool_results_impl never receives. -/
theorem c1_continuation_without_prior_history :
    (∀ (messages messages2 : List Message) (chunks : List Str),
      next_request_messages messages chunks = next_request_messages messages2 chunks) ∧
    (∀ tcs : List ToolCall,
      handle_tool_results_messages tcs =
        .ok (assistantToolsMsg tcs :: tcs.map (fun tc => mkToolMsg (execResult tc.function)))) :=
  ⟨fun _ _ _ => rfl, handle_tool_results_spec⟩

/-- C2: in one Executing pass over the accumulated tool calls the executor
trace is the call list twice over - every requested call is executed once
in the done-frame printing loop (its result only printed) and once more in
handle_tool_results_impl, whose second-run results become the contents of
the tool-role turns. -/
theorem c2_each_executor_invoked_twice (tcs : List ToolCall) :
    executing_pass tcs = .ok (tcs.map (fun tc => execResult tc.function),
      assistantToolsMsg tcs :: tcs.map (fun tc => mkToolMsg (execResult tc.function)),
      tcs.map (fun tc => tc.function) ++ tcs.map (fun tc => tc.function)) :=
  executing_pass_spec tcs

/-- C3: the reader has no carry buffer across chunks, so a frame line split
mid-line over two chunks is processed as two separate lines, both of which
fail to decode, and the frame is lost: the whole delivery accumulates
"hi" while the split delivery of the same bytes accumulates nothing. -/
theorem c3_split_line_loses_frame :
    c3Part1 ++ c3Part2 = chunkHiWhole ∧
    outcomeAcc (chat_stream_with_tools_impl [] [chunkHiWhole]) = str "hi" ∧
    outcomeAcc (chat_stream_with_tools_impl [] [c3Part1, c3Part2]) = [] ∧
    str "hi" ≠ ([] : Str) :=
  ⟨rfl, rfl, rfl, by decide⟩

/-- C6: the break taken on a done frame with no pending tool calls exits
the line loop only, so the reader keeps consuming the stream: after the
done frame of the first chunk (content "A"), the second chunk is still
read and its frame decoded, and its content "B" is appended to the
accumulator. -/
theorem c6_reader_consumes_after_done :
    outcomeAcc (chat_stream_with_tools_impl [] [chunkDoneA]) = str "A" ∧
    outcomeAcc (chat_stream_with_tools_impl [] [chunkDoneA, chunkB]) = str "AB" ∧
    str "AB" ≠ str "A" :=
  ⟨rfl, rfl, by decide⟩

/-- C8 counterexample.  One chunk holding a done frame (content "A")
followed by a decodable frame with content "B" is well-formed in the
claim's sense (every non-blank line decodes), yet the assembler stops at
the done frame and finishes with "A" while the frame-content
concatenation is "AB". -/
theorem c8_counterexample :
    (allLines [chunkDoneA ++ chunkB]).all (fun l => (decodeLine l).isSome) = true ∧
    contentsOf (allLines [chunkDoneA ++ chunkB]) = str "AB" ∧
    outcomeAcc (chat_stream_with_tools_impl [] [chunkDoneA ++ chunkB]) = str "A" ∧
    str "A" ≠ str "AB" :=
  ⟨rfl, rfl, rfl, by decide⟩

/-- C8 amended: for every delivered NDJSON stream in which every non-blank
line decodes as a frame and a done = true frame occurs only as the final
frame (only blank lines after it), the assembler's final accumulated text
equals the concatenation of every frame's message content in arrival
order. -/
theorem c8_final_text_is_concat (messages : List Message) (chunks : List Str)
    (h : goodLines (allLines chunks) = true) :
    outcomeAcc (chat_stream_with_tools_impl messages chunks) = contentsOf (allLines chunks) := by
  have := chat_stream_chunks_good chunks [] [] h
  simpa [chat_stream_with_tools_impl] using this

/-- C8 witness: the amended theorem applied to the concrete two-chunk
stream [chunkB, chunkDoneA], whose frames carry "B" then "A". -/
theorem c8_witness :
    goodLines (allLines [chunkB, chunkDoneA]) = true ∧
    outcomeAcc (chat_stream_with_tools_impl [] [chunkB, chunkDoneA]) = str "BA" :=
  ⟨by decide, (c8_final_text_is_concat [] [chunkB, chunkDoneA] (by decide)).trans (by decide)⟩

/-- C9: executing a tool call whose name is not registered (neither
get_weather nor calculate) never aborts: execute_tool returns Ok with the
fixed "Tool not implemented" text, handle_tool_results_impl always
produces the continuation message list (never an error), and the tool-role
turn for that call - at position length(pre) + 1, after the leading
assistant turn - carries exactly that text as its content. -/
theorem c9_unknown_tool_never_aborts (tc : ToolCall)
    (h1 : tc.function.name ≠ str "get_weather")
    (h2 : tc.function.name ≠ str "calculate") :
    execute_tool tc.function = .ok toolNotImplemented ∧
    (∀ pre post : List ToolCall, ∃ ms,
      handle_tool_results_messages (pre ++ tc :: post) = .ok ms ∧
      ms[pre.length + 1]? = some (mkToolMsg toolNotImplemented)) ∧
    (∀ tcs : List ToolCall, ∃ ms, handle_tool_results_messages tcs = .ok ms) := by
  have hexec : execute_tool tc.function = .ok toolNotImplemented := by
    unfold execute_tool
    rw [if_neg h1, if_neg h2]
    rfl
  refine ⟨hexec, ?_, fun tcs => ⟨_, handle_tool_results_spec tcs⟩⟩
  intro pre post
  refine ⟨_, handle_tool_results_spec _, ?_⟩
  have hres : execResult tc.function = toolNotImplemented := by
    unfold execResult
    rw [hexec]
  rw [List.getElem?_cons_succ, map_append_cons_getElem, hres]

/-- C9 witness: the theorem applied to the concrete unregistered call
fooToolCall. -/
theorem c9_witness :
    execute_tool fooToolCall.function = .ok toolNotImplemented ∧
    ∃ ms, handle_tool_results_messages [fooToolCall] = .ok ms ∧
      ms[1]? = some (mkToolMsg toolNotImplemented) := by
  have h := c9_unknown_tool_never_aborts fooToolCall (by decide) (by decide)
  refine ⟨h.1, ?_⟩
  simpa using h.2.1 [] []

end Brain
